import Mathlib

/-!
Verification of the Clifford utilities for randomized benchmarking
(`clifford_utils.py`): mixed-radix unranking, 1- and 2-qubit Clifford
circuit synthesis, the edge-grab coupling-constrained sampler, and the
target bit-string extractor.  Each definition is a shallow embedding of
the corresponding Python function; machine integers are modelled as
`Nat` (Python integers are arbitrary precision, so no wrap-around is
introduced), fallible paths return `Option`.
-/

namespace CliffordUtils

/-- Elementary gates appearing in the synthesized circuits.  A circuit is
an ordered list of gate applications on register positions. -/
inductive Gate where
  | h (q : Nat)
  | sxdg (q : Nat)
  | s (q : Nat)
  | sdg (q : Nat)
  | x (q : Nat)
  | y (q : Nat)
  | z (q : Nat)
  | v (q : Nat)
  | w (q : Nat)
  | cx (c t : Nat)
  deriving DecidableEq, Repr

def NUM_CLIFFORD_1_QUBIT : Nat := 24
def NUM_CLIFFORD_2_QUBIT : Nat := 11520
def CLIFFORD_1_QUBIT_SIG : List Nat := [2, 3, 4]
def CLIFFORD_2_QUBIT_SIGS : List (List Nat) :=
  [[2, 2, 3, 3, 4, 4],
   [2, 2, 3, 3, 3, 3, 4, 4],
   [2, 2, 3, 3, 3, 3, 4, 4],
   [2, 2, 3, 3, 4, 4]]

/-- Embedding of `_unpack_num(num, sig)`: successively emit `num % k` and divide,
for each radix `k` of the signature. -/
def _unpack_num (num : Nat) : List Nat → List Nat
  | [] => []
  | k :: ks => num % k :: _unpack_num (num / k) ks

/-- Auxiliary recursion of `_unpack_num_multi_sigs`, carrying the index
of the current signature. -/
def unpackMultiAux (num : Nat) (i : Nat) : List (List Nat) → Option (List Nat)
  | [] => none
  | sig :: sigs =>
    if num < sig.prod then some (i :: _unpack_num num sig)
    else unpackMultiAux (num - sig.prod) (i + 1) sigs

/-- Embedding of `_unpack_num_multi_sigs(num, sigs)`: find the first signature whose
span still contains `num` (subtracting prior spans), return its index
consed onto the unpacked digits; `none` when `num` exceeds every span. -/
def _unpack_num_multi_sigs (num : Nat) (sigs : List (List Nat)) : Option (List Nat) :=
  unpackMultiAux num 0 sigs

/-- Spec-side composition `Σ di·Π_{j<i} rj` in Horner form, the inverse
of `_unpack_num`. -/
def packNum : List Nat → List Nat → Nat
  | d :: ds, k :: ks => d + k * packNum ds ks
  | _, _ => 0

/-- The 1-qubit synthesis layer of `clifford_1_qubit_circuit` at register
position `q` (the same gate chain is inlined at arbitrary `q` inside
`random_edgegrab_clifford_circuits`). -/
def clifford1QubitLayer (num : Nat) (q : Nat) : List Gate :=
  match _unpack_num num CLIFFORD_1_QUBIT_SIG with
  | i :: j :: p :: _ =>
    (if i = 1 then [Gate.h q] else []) ++
    (if j = 1 then [Gate.sxdg q] else []) ++
    (if j = 2 then [Gate.s q] else []) ++
    (if p = 1 then [Gate.x q] else []) ++
    (if p = 2 then [Gate.y q] else []) ++
    (if p = 3 then [Gate.z q] else [])
  | _ => []

/-- Embedding of `clifford_1_qubit_circuit(num)`: unpack against `(2,3,4)` and emit the
Hadamard / S-type / Pauli chain on qubit 0. -/
def clifford_1_qubit_circuit (num : Nat) : List Gate :=
  clifford1QubitLayer num 0

/-- Gate emission of `clifford_2_qubit_circuit` from the unpacked value
list `form :: digits`.  The source destructures the digits as
`(i0,i1,j0,j1,p0,p1)` when `form` is 0 or 3 and as
`(i0,i1,j0,j1,k0,k1,p0,p1)` otherwise, then runs one fixed chain of
conditional appends. -/
def clifford2Gates (vals : List Nat) : List Gate :=
  match vals with
  | form :: i0 :: i1 :: j0 :: j1 :: rest =>
    let k0 := if form = 0 ∨ form = 3 then 0 else rest.headD 0
    let k1 := if form = 0 ∨ form = 3 then 0 else (rest.drop 1).headD 0
    let p0 := if form = 0 ∨ form = 3 then rest.headD 0 else (rest.drop 2).headD 0
    let p1 := if form = 0 ∨ form = 3 then (rest.drop 1).headD 0 else (rest.drop 3).headD 0
    (if i0 = 1 then [Gate.h 0] else []) ++
    (if i1 = 1 then [Gate.h 1] else []) ++
    (if j0 = 1 then [Gate.sxdg 0] else []) ++
    (if j0 = 2 then [Gate.s 0] else []) ++
    (if j1 = 1 then [Gate.sxdg 1] else []) ++
    (if j1 = 2 then [Gate.s 1] else []) ++
    (if form = 1 ∨ form = 2 ∨ form = 3 then [Gate.cx 0 1] else []) ++
    (if form = 2 ∨ form = 3 then [Gate.cx 1 0] else []) ++
    (if form = 3 then [Gate.cx 0 1] else []) ++
    (if form = 1 ∨ form = 2 then
      (if k0 = 1 then [Gate.v 0] else []) ++
      (if k0 = 2 then [Gate.w 0] else []) ++
      (if k1 = 1 then [Gate.v 1] else []) ++
      (if k1 = 2 then [Gate.v 1, Gate.v 1] else [])
    else []) ++
    (if p0 = 1 then [Gate.x 0] else []) ++
    (if p0 = 2 then [Gate.y 0] else []) ++
    (if p0 = 3 then [Gate.z 0] else []) ++
    (if p1 = 1 then [Gate.x 1] else []) ++
    (if p1 = 2 then [Gate.y 1] else []) ++
    (if p1 = 3 then [Gate.z 1] else [])
  | _ => []

/-- Embedding of `clifford_2_qubit_circuit(num)`: resolve `num` against the four
2-qubit signatures, then emit the gate chain; an unresolvable (out of
range) index yields no circuit. -/
def clifford_2_qubit_circuit (num : Nat) : Option (List Gate) :=
  (_unpack_num_multi_sigs num CLIFFORD_2_QUBIT_SIGS).map clifford2Gates

/-- Spec-side Hadamard layer for one qubit: `H` exactly when the digit
is 1. -/
def hLayer1 (h : Nat) : List Gate :=
  match h with
  | 1 => [Gate.h 0]
  | _ => []

/-- Spec-side S-type layer: inverse-√X for digit 1, S for digit 2,
nothing for 0. -/
def sLayer1 (s : Nat) : List Gate :=
  match s with
  | 1 => [Gate.sxdg 0]
  | 2 => [Gate.s 0]
  | _ => []

/-- Spec-side Pauli layer: X, Y, Z for digits 1, 2, 3, nothing for 0. -/
def pLayer1 (p : Nat) : List Gate :=
  match p with
  | 1 => [Gate.x 0]
  | 2 => [Gate.y 0]
  | 3 => [Gate.z 0]
  | _ => []

/-- Spec-side per-qubit Hadamard and S-type layers of the 2-qubit
synthesizer (everything before the entangling layer). -/
def hsLayers2 (i0 i1 j0 j1 : Nat) : List Gate :=
  (if i0 = 1 then [Gate.h 0] else []) ++
  (if i1 = 1 then [Gate.h 1] else []) ++
  (if j0 = 1 then [Gate.sxdg 0] else []) ++
  (if j0 = 2 then [Gate.s 0] else []) ++
  (if j1 = 1 then [Gate.sxdg 1] else []) ++
  (if j1 = 2 then [Gate.s 1] else [])

/-- Spec-side form-selected CNOT pattern: form 0 none, form 1 one CNOT
(0→1), form 2 two CNOTs (0→1 then 1→0), form 3 the 3-CNOT
SWAP-equivalent pattern. -/
def cnotPattern (form : Nat) : List Gate :=
  match form with
  | 1 => [Gate.cx 0 1]
  | 2 => [Gate.cx 0 1, Gate.cx 1 0]
  | 3 => [Gate.cx 0 1, Gate.cx 1 0, Gate.cx 0 1]
  | _ => []

/-- Spec-side correction layer, present only for forms 1 and 2: V for
digit 1 on either qubit, W for `k0 = 2` on qubit 0, and V twice (not W)
for `k1 = 2` on qubit 1. -/
def correctionLayer (form k0 k1 : Nat) : List Gate :=
  if form = 1 ∨ form = 2 then
    (match k0 with
      | 1 => [Gate.v 0]
      | 2 => [Gate.w 0]
      | _ => []) ++
    (match k1 with
      | 1 => [Gate.v 1]
      | 2 => [Gate.v 1, Gate.v 1]
      | _ => [])
  else []

/-- Spec-side final per-qubit Pauli layer of the 2-qubit synthesizer. -/
def pauliLayers2 (p0 p1 : Nat) : List Gate :=
  (if p0 = 1 then [Gate.x 0] else []) ++
  (if p0 = 2 then [Gate.y 0] else []) ++
  (if p0 = 3 then [Gate.z 0] else []) ++
  (if p1 = 1 then [Gate.x 1] else []) ++
  (if p1 = 2 then [Gate.y 1] else []) ++
  (if p1 = 3 then [Gate.z 1] else [])

/-- Result shape of `random_cliffords`: for more than 2 qubits the
source returns the bare value of the external `random_clifford` call (a
single element, not a list); otherwise a list of sampled group indices
(each wrapped into a `Clifford` element by the source). -/
inductive CliffordsReturn where
  | single
  | elems (indices : List Nat)
  deriving DecidableEq, Repr

/-- Embedding of `random_cliffords(num_qubits, size, rng)`.  The random stream is
explicit: `samples t` is the `t`-th draw, reduced mod the group size
exactly as `rng.integers(bound)` guarantees a value below `bound`. -/
def random_cliffords (num_qubits size : Nat) (samples : Nat → Nat) : CliffordsReturn :=
  if 2 < num_qubits then CliffordsReturn.single
  else if num_qubits = 1 then
    CliffordsReturn.elems ((List.range size).map fun t => samples t % 24)
  else
    CliffordsReturn.elems ((List.range size).map fun t => samples t % 11520)

/-- Embedding of `random_clifford_circuits(num_qubits, size, rng)`: for more than 2
qubits, `size` draws from the external sampler (modelled as the stream
`external`); otherwise `size` uniform indices resolved through the
1- or 2-qubit synthesizer. -/
def random_clifford_circuits (num_qubits size : Nat) (samples : Nat → Nat)
    (external : Nat → List Gate) : List (Option (List Gate)) :=
  if 2 < num_qubits then (List.range size).map fun t => some (external t)
  else if num_qubits = 1 then
    (List.range size).map fun t => some (clifford_1_qubit_circuit (samples t % 24))
  else
    (List.range size).map fun t => clifford_2_qubit_circuit (samples t % 11520)

/-- A coupling-map edge, as the ordered pair of its two endpoints
(the source represents it as a two-element list). -/
abbrev Edge := Nat × Nat

/-- The test `rand_edge[0] in edge or rand_edge[1] in edge`: the source keeps a
remaining edge only when this is false. -/
def sharesVertex (e f : Edge) : Bool :=
  (e.1 = f.1 || e.1 = f.2) || (e.2 = f.1 || e.2 = f.2)

/-- Vertex-disjointness of two edges (the negation of `sharesVertex`). -/
def edgeDisjoint (e f : Edge) : Prop :=
  e.1 ≠ f.1 ∧ e.1 ≠ f.2 ∧ e.2 ≠ f.1 ∧ e.2 ≠ f.2

instance (e f : Edge) : Decidable (edgeDisjoint e f) := by
  unfold edgeDisjoint
  infer_instance

/-- The while-loop of `random_edgegrab_clifford_circuits`: while edges
remain, pop one at a random position (`choices` is the stream of draws
of `rng.integers(len(all_edges))`, reduced mod the current length, which
is exactly the range the generator guarantees), commit it to
`selected`, and keep only remaining edges sharing no vertex with it. -/
def edgegrabLoop (edges : List Edge) (choices : List Nat) (selected : List Edge) :
    List Edge :=
  match edges with
  | [] => selected
  | e :: es =>
    let idx := choices.headD 0 % (e :: es).length
    let rand := (e :: es).getD idx (0, 0)
    let rest := (e :: es).eraseIdx idx
    edgegrabLoop (rest.filter fun f => !sharesVertex rand f) choices.tail
      (selected ++ [rand])
termination_by edges.length
decreasing_by
  refine Nat.lt_of_le_of_lt (List.length_filter_le _ _) ?_
  have hidx : choices.headD 0 % (e :: es).length < (e :: es).length :=
    Nat.mod_lt _ (by simp)
  rw [List.length_eraseIdx, if_pos hidx]
  simp

/-- Physical-to-logical relabelling of the selected edges:
`np.where(q == np.asarray(qubits))[0][0]` is the first position of `q`
in the qubit list. -/
def logicalEdges (qubits : List Nat) (edges : List Edge) : List Edge :=
  edges.map fun e => (qubits.indexOf e.1, qubits.indexOf e.2)

/-- Per-edge coin flips of the main loop: edge number `t` of the
selected matching receives a CNOT exactly when `coins t` is true
(`rng.random() < two_qubit_prob`). -/
def cnotAssign (edges : List Edge) (coins : Nat → Bool) : List Edge :=
  (edges.enum.filter fun p => coins p.1).map Prod.snd

/-- Whether `q` is an endpoint of the edge `e`. -/
def touches (q : Nat) (e : Edge) : Bool :=
  q = e.1 || q = e.2

/-- The set `put_1_qubit_clifford` after the CNOT loop: start from
`np.arange(num_qubits)` and remove both endpoints of every edge that
received a CNOT. -/
def put1q (n : Nat) (cnotEdges : List Edge) : List Nat :=
  (List.range n).filter fun q => cnotEdges.all fun e => !touches q e

/-- The two-qubit probability computation with its warning flag: the
source initializes the probability to 0 and computes
`num_qubits * density / len(selected_edges)`, catching the
division-by-zero of an empty matching with a connectivity warning and
leaving the probability at 0. -/
def twoQubitProb (n : Nat) (density : ℚ) (m : Nat) : ℚ × Bool :=
  if m = 0 then (0, true) else ((n : ℚ) * density / (m : ℚ), false)

/-- Gate assembly of one edge-grab circuit after the matching has been
relabelled: a CNOT (control first listed) per coin-selected edge, then
an independently sampled 1-qubit Clifford layer for every qubit left in
`put_1_qubit_clifford` (`samples` is the stream of `rng.integers(24)`
draws, one per such qubit). -/
def edgegrabCircuit (n : Nat) (sellog : List Edge) (coins : Nat → Bool)
    (samples : Nat → Nat) : List Gate :=
  let ce := cnotAssign sellog coins
  (ce.map fun e => Gate.cx e.1 e.2) ++
    ((put1q n ce).enum.map fun p => clifford1QubitLayer (samples p.1 % 24) p.2).flatten

/-- One full circuit of `random_edgegrab_clifford_circuits` for at least
2 qubits: run the matching loop on a copy of the coupling map, relabel
to logical indices, then assemble the gates. -/
def edgegrabOneCircuit (qubits : List Nat) (coupling_map : List Edge)
    (choices : List Nat) (coins : Nat → Bool) (samples : Nat → Nat) : List Gate :=
  edgegrabCircuit qubits.length
    (logicalEdges qubits (edgegrabLoop coupling_map choices [])) coins samples

/-- Whether a gate is a CNOT. -/
def isCx : Gate → Bool
  | Gate.cx _ _ => true
  | _ => false

/-- Embedding of `compute_target_bitstring(circuit)` given the element's phase
vector: take the entries from position `n` on (the stabilizer half),
reverse them, and map `True` to `'1'` and `False` to `'0'`. -/
def compute_target_bitstring (n : Nat) (phase_vector : List Bool) : String :=
  String.mk ((phase_vector.drop n).reverse.map fun phase => if phase then '1' else '0')

/-- One row of a 1-qubit stabilizer tableau: the Pauli
`(-1)^r i^(x·z) X^x Z^z`. -/
structure PauliRow where
  x : Bool
  z : Bool
  r : Bool
  deriving DecidableEq, Repr

/-- Modelled from the spec: the external stabilizer-tableau provider
(`Clifford(circuit).table.phase` in the source is supplied by the
quantum-info library, which is outside this repository).  Conjugation
action of one elementary gate on a Pauli row, following the standard
stabilizer-tableau update rules; the V and W gates act by their
definitions in the source (`V = Sdg then H`, `W = H then S`), and the
two-qubit CNOT does not occur in a 1-qubit circuit. -/
def applyGate1 (g : Gate) (p : PauliRow) : PauliRow :=
  let hRow : PauliRow → PauliRow := fun q => ⟨q.z, q.x, xor q.r (q.x && q.z)⟩
  let sRow : PauliRow → PauliRow := fun q => ⟨q.x, xor q.z q.x, xor q.r (q.x && q.z)⟩
  let sdgRow : PauliRow → PauliRow := fun q => ⟨q.x, xor q.z q.x, xor q.r (q.x && !q.z)⟩
  match g with
  | Gate.h _ => hRow p
  | Gate.s _ => sRow p
  | Gate.sdg _ => sdgRow p
  | Gate.sxdg _ => ⟨xor p.x p.z, p.z, xor p.r (p.x && p.z)⟩
  | Gate.x _ => ⟨p.x, p.z, xor p.r p.z⟩
  | Gate.y _ => ⟨p.x, p.z, xor p.r (xor p.x p.z)⟩
  | Gate.z _ => ⟨p.x, p.z, xor p.r p.x⟩
  | Gate.v _ => hRow (sdgRow p)
  | Gate.w _ => sRow (hRow p)
  | Gate.cx _ _ => p

/-- Modelled from the spec: the phase vector of a 1-qubit circuit, as
the external provider computes it — conjugate the initial destabilizer
`X` and stabilizer `Z` through the circuit and read off the two sign
bits `(destabilizer phase, stabilizer phase)`. -/
def phase_vector_1q (gates : List Gate) : List Bool :=
  let destab := gates.foldl (fun p g => applyGate1 g p) ⟨true, false, false⟩
  let stab := gates.foldl (fun p g => applyGate1 g p) ⟨false, true, false⟩
  [destab.r, stab.r]

/-- Each digit produced by `_unpack_num` is strictly below its radix. -/
theorem unpack_digit_bounds (sig : List Nat) (num : Nat) (hpos : ∀ r ∈ sig, 0 < r) :
    List.Forall₂ (fun d r => d < r) (_unpack_num num sig) sig := by
  induction sig generalizing num with
  | nil => exact List.Forall₂.nil
  | cons k ks ih =>
    refine List.Forall₂.cons ?_ (ih (num / k) fun r hr => hpos r (List.mem_cons_of_mem _ hr))
    exact Nat.mod_lt _ (hpos k (List.mem_cons_self _ _))

/-- Re-composing the digits of an in-range index recovers the index. -/
theorem pack_unpack (sig : List Nat) (num : Nat) (hpos : ∀ r ∈ sig, 0 < r)
    (hlt : num < sig.prod) : packNum (_unpack_num num sig) sig = num := by
  induction sig generalizing num with
  | nil =>
    simp only [List.prod_nil] at hlt
    interval_cases num
    rfl
  | cons k ks ih =>
    have hk : 0 < k := hpos k (List.mem_cons_self _ _)
    have hdiv : num / k < ks.prod := by
      rw [Nat.div_lt_iff_lt_mul hk]
      calc num < (k :: ks).prod := hlt
        _ = ks.prod * k := by rw [List.prod_cons, Nat.mul_comm]
    simp only [_unpack_num, packNum]
    rw [ih (num / k) (fun r hr => hpos r (List.mem_cons_of_mem _ hr)) hdiv]
    exact Nat.mod_add_div num k

/-- The multi-signature scan resolves an index exactly when the index is
below the sum of the signature spans. -/
theorem unpackMultiAux_isSome (sigs : List (List Nat)) (num i : Nat) :
    (unpackMultiAux num i sigs).isSome ↔ num < (sigs.map List.prod).sum := by
  induction sigs generalizing num i with
  | nil => simp [unpackMultiAux]
  | cons sig sigs ih =>
    simp only [unpackMultiAux, List.map_cons, List.sum_cons]
    by_cases h : num < sig.prod
    · simp only [if_pos h, Option.isSome_some, true_iff]
      exact Nat.lt_of_lt_of_le h (Nat.le_add_right _ _)
    · rw [if_neg h, ih]
      omega

/-- Out of range means unresolvable: when the index is at least the sum
of spans, `_unpack_num_multi_sigs` yields `none`. -/
theorem unpack_multi_none_of_ge (sigs : List (List Nat)) (num : Nat)
    (h : (sigs.map List.prod).sum ≤ num) : _unpack_num_multi_sigs num sigs = none := by
  have := (unpackMultiAux_isSome sigs num 0).not
  simp only [Nat.not_lt, Option.not_isSome_iff_eq_none] at this
  exact this.mpr h

theorem edgeDisjoint_symm {e f : Edge} (h : edgeDisjoint e f) : edgeDisjoint f e :=
  ⟨Ne.symm h.1, Ne.symm h.2.2.1, Ne.symm h.2.1, Ne.symm h.2.2.2⟩

theorem edgeDisjoint_of_not_sharesVertex {e f : Edge} (h : sharesVertex e f = false) :
    edgeDisjoint e f := by
  simp only [sharesVertex, Bool.or_eq_false_iff, decide_eq_false_iff_not] at h
  exact ⟨h.1.1, h.1.2, h.2.1, h.2.2⟩

theorem touches_iff (q : Nat) (e : Edge) : touches q e = true ↔ q = e.1 ∨ q = e.2 := by
  simp [touches]

/-- Every edge produced by the matching loop comes from the accumulator
or from the remaining-edge list. -/
theorem edgegrabLoop_mem (edges : List Edge) (choices : List Nat) (selected : List Edge) :
    ∀ x ∈ edgegrabLoop edges choices selected, x ∈ selected ∨ x ∈ edges := by
  induction edges, choices, selected using edgegrabLoop.induct with
  | case1 choices selected =>
    intro x hx
    rw [edgegrabLoop] at hx
    exact Or.inl hx
  | case2 choices selected e es idx rand rest ih =>
    intro x hx
    rw [edgegrabLoop] at hx
    have hlt : idx < (e :: es).length := Nat.mod_lt _ (by simp)
    have hrand : rand = (e :: es)[idx] := List.getD_eq_getElem _ _ hlt
    rcases ih x hx with hsel | hrest
    · rcases List.mem_append.mp hsel with hs | hr
      · exact Or.inl hs
      · right
        rw [List.mem_singleton.mp hr, hrand]
        exact List.getElem_mem hlt
    · right
      exact List.mem_of_mem_eraseIdx (List.mem_filter.mp hrest).1

/-- Invariant of the matching loop: if the accumulator is pairwise
vertex-disjoint and disjoint from every remaining edge, the final
selection is pairwise vertex-disjoint. -/
theorem edgegrabLoop_pairwise (edges : List Edge) (choices : List Nat)
    (selected : List Edge) :
    List.Pairwise edgeDisjoint selected →
    (∀ s ∈ selected, ∀ f ∈ edges, edgeDisjoint s f) →
    List.Pairwise edgeDisjoint (edgegrabLoop edges choices selected) := by
  induction edges, choices, selected using edgegrabLoop.induct with
  | case1 choices selected =>
    intro hsel _
    rw [edgegrabLoop]
    exact hsel
  | case2 choices selected e es idx rand rest ih =>
    intro hsel hcross
    rw [edgegrabLoop]
    have hlt : idx < (e :: es).length := Nat.mod_lt _ (by simp)
    have hrand : rand = (e :: es)[idx] := List.getD_eq_getElem _ _ hlt
    have hrandmem : rand ∈ e :: es := by
      rw [hrand]
      exact List.getElem_mem hlt
    refine ih ?_ ?_
    · rw [List.pairwise_append]
      refine ⟨hsel, List.pairwise_singleton _ _, fun s hs y hy => ?_⟩
      rw [List.mem_singleton.mp hy]
      exact hcross s hs _ hrandmem
    · intro s hs f hf
      have hfrest := List.mem_filter.mp hf
      rcases List.mem_append.mp hs with hssel | hsrand
      · exact hcross s hssel f (List.mem_of_mem_eraseIdx hfrest.1)
      · rw [List.mem_singleton.mp hsrand]
        exact edgeDisjoint_of_not_sharesVertex (by simpa using hfrest.2)

/-- A pairwise vertex-disjoint edge list contains at most one edge
touching any given vertex. -/
theorem countP_touches_le_one (q : Nat) (l : List Edge)
    (h : List.Pairwise edgeDisjoint l) : l.countP (touches q) ≤ 1 := by
  induction l with
  | nil => simp [List.countP_nil]
  | cons e es ih =>
    rcases List.pairwise_cons.mp h with ⟨he, hes⟩
    rw [List.countP_cons]
    by_cases ht : touches q e = true
    · have hzero : es.countP (touches q) = 0 := by
        rw [List.countP_eq_zero]
        intro f hf hqf
        rcases (touches_iff q e).mp ht with h1 | h1 <;>
          rcases (touches_iff q f).mp hqf with h2 | h2 <;>
          [exact (he f hf).1 (h1 ▸ h2 ▸ rfl); exact (he f hf).2.1 (h1 ▸ h2 ▸ rfl);
            exact (he f hf).2.2.1 (h1 ▸ h2 ▸ rfl); exact (he f hf).2.2.2 (h1 ▸ h2 ▸ rfl)]
      simp [hzero, ht]
    · simpa [ht] using ih hes

/-- Membership in `put_1_qubit_clifford`: below the qubit count and
touching no CNOT-selected edge. -/
theorem mem_put1q_iff (n q : Nat) (ce : List Edge) :
    q ∈ put1q n ce ↔ q < n ∧ ∀ e ∈ ce, touches q e = false := by
  simp [put1q, List.mem_filter, List.mem_range, List.all_eq_true]

/-- The CNOT-selected edges form a sublist of the matching. -/
theorem cnotAssign_sublist (edges : List Edge) (coins : Nat → Bool) :
    (cnotAssign edges coins).Sublist edges := by
  have h1 : ((edges.enum.filter fun p => coins p.1).map Prod.snd).Sublist
      (edges.enum.map Prod.snd) := List.Sublist.map _ (List.filter_sublist _)
  rw [List.enum_map_snd] at h1
  exact h1

/-- C1: for every signature of positive radices and every in-range
index, `_unpack_num` produces digits below their radices, re-composing
the digits as `Σ di·Π_{j<i} rj` recovers the index exactly, and digit
tuples of distinct in-range indices are distinct. -/
theorem unpack_num_roundtrip (sig : List Nat) (index index2 : Nat)
    (hpos : ∀ r ∈ sig, 0 < r) (hlt : index < sig.prod) (hlt2 : index2 < sig.prod) :
    List.Forall₂ (fun d r => d < r) (_unpack_num index sig) sig ∧
    packNum (_unpack_num index sig) sig = index ∧
    (_unpack_num index2 sig = _unpack_num index sig → index2 = index) := by
  refine ⟨unpack_digit_bounds sig index hpos, pack_unpack sig index hpos hlt, fun heq => ?_⟩
  calc index2 = packNum (_unpack_num index2 sig) sig :=
        (pack_unpack sig index2 hpos hlt2).symm
    _ = packNum (_unpack_num index sig) sig := by rw [heq]
    _ = index := pack_unpack sig index hpos hlt

theorem unpack_num_roundtrip_witness :
    ((∀ r ∈ ([2, 3, 4] : List Nat), 0 < r) ∧ 17 < ([2, 3, 4] : List Nat).prod ∧
      5 < ([2, 3, 4] : List Nat).prod) ∧
    (List.Forall₂ (fun d r => d < r) (_unpack_num 17 [2, 3, 4]) [2, 3, 4] ∧
      packNum (_unpack_num 17 [2, 3, 4]) [2, 3, 4] = 17 ∧
      (_unpack_num 5 [2, 3, 4] = _unpack_num 17 [2, 3, 4] → 5 = 17)) :=
  ⟨⟨by decide, by decide, by decide⟩,
    unpack_num_roundtrip [2, 3, 4] 17 5 (by decide) (by decide) (by decide)⟩

/-- C8: the spans of the four 2-qubit signatures sum to exactly 11520,
the 2-qubit group size, so the four forms partition the index range:
an index resolves to a form precisely when it is below 11520. -/
theorem two_qubit_sigs_span_partition :
    (CLIFFORD_2_QUBIT_SIGS.map List.prod).sum = NUM_CLIFFORD_2_QUBIT ∧
    ∀ num, (num < NUM_CLIFFORD_2_QUBIT ↔
      (_unpack_num_multi_sigs num CLIFFORD_2_QUBIT_SIGS).isSome) := by
  have hsum : (CLIFFORD_2_QUBIT_SIGS.map List.prod).sum = NUM_CLIFFORD_2_QUBIT := by decide
  refine ⟨hsum, fun num => ?_⟩
  rw [_unpack_num_multi_sigs, unpackMultiAux_isSome, hsum]

/-- C4 counterexample: an out-of-range index on the 1-qubit path does
not fail — `_unpack_num` silently wraps, so index 24 synthesizes the
same circuit as index 0. -/
theorem one_qubit_unranking_wraps :
    clifford_1_qubit_circuit 24 = clifford_1_qubit_circuit 0 ∧
    _unpack_num 24 CLIFFORD_1_QUBIT_SIG = _unpack_num 0 CLIFFORD_1_QUBIT_SIG := by
  decide

/-- C4 (amended): `_unpack_num_multi_sigs` resolves to `none` (the
out-of-range failure observed by its caller) whenever the index is at
least the sum of the signature spans, and hence the 2-qubit synthesis
path yields no circuit for indices at or above 11520; the 1-qubit path
performs no such check and wraps silently. -/
theorem unrank_multi_out_of_range :
    (∀ (sigs : List (List Nat)) (index : Nat), (sigs.map List.prod).sum ≤ index →
      _unpack_num_multi_sigs index sigs = none) ∧
    (∀ index : Nat, NUM_CLIFFORD_2_QUBIT ≤ index → clifford_2_qubit_circuit index = none) := by
  refine ⟨fun sigs index h => unpack_multi_none_of_ge sigs index h, fun index h => ?_⟩
  have hspan : (CLIFFORD_2_QUBIT_SIGS.map List.prod).sum ≤ index := by
    have : (CLIFFORD_2_QUBIT_SIGS.map List.prod).sum = NUM_CLIFFORD_2_QUBIT := by decide
    omega
  rw [clifford_2_qubit_circuit, unpack_multi_none_of_ge _ _ hspan, Option.map_none']

theorem unrank_multi_out_of_range_witness :
    ((([[2, 3]] : List (List Nat)).map List.prod).sum ≤ 6 ∧
      NUM_CLIFFORD_2_QUBIT ≤ 11520) ∧
    (_unpack_num_multi_sigs 6 [[2, 3]] = none ∧ clifford_2_qubit_circuit 11520 = none) :=
  ⟨⟨by decide, by decide⟩,
    ⟨unrank_multi_out_of_range.1 [[2, 3]] 6 (by decide),
      unrank_multi_out_of_range.2 11520 (by decide)⟩⟩

/-- C7: for every index below 24, the digits unpack against `(2,3,4)`
and the synthesized circuit is exactly the Hadamard layer, then the
S-type layer, then the Pauli layer, each following the digit table. -/
theorem clifford_1_qubit_layer_table (num : Nat) (hn : num < 24) :
    ∃ hd s p, _unpack_num num CLIFFORD_1_QUBIT_SIG = [hd, s, p] ∧
      clifford_1_qubit_circuit num = hLayer1 hd ++ sLayer1 s ++ pLayer1 p := by
  interval_cases num <;> exact ⟨_, _, _, rfl, rfl⟩

theorem clifford_1_qubit_layer_table_witness :
    7 < 24 ∧ ∃ hd s p, _unpack_num 7 CLIFFORD_1_QUBIT_SIG = [hd, s, p] ∧
      clifford_1_qubit_circuit 7 = hLayer1 hd ++ sLayer1 s ++ pLayer1 p :=
  ⟨by decide, clifford_1_qubit_layer_table 7 (by decide)⟩

/-- C5 failing input: for 3 qubits and requested size 2,
`random_cliffords` returns the bare result of the external sampler — a
single element, not a list of 2 — while `random_clifford_circuits` does
return 2 circuits. -/
theorem random_cliffords_three_qubits_single :
    random_cliffords 3 2 (fun _ => 0) = CliffordsReturn.single ∧
    (random_clifford_circuits 3 2 (fun _ => 0) (fun _ => [])).length = 2 ∧
    (random_clifford_circuits 1 5 (fun t => t) (fun _ => [])).length = 5 ∧
    (random_clifford_circuits 2 5 (fun t => t) (fun _ => [])).length = 5 := by
  decide

theorem clifford2Gates_form0 (i0 i1 j0 j1 p0 p1 : Nat) :
    clifford2Gates (0 :: i0 :: i1 :: j0 :: j1 :: [p0, p1]) =
      hsLayers2 i0 i1 j0 j1 ++ cnotPattern 0 ++ correctionLayer 0 0 0 ++
        pauliLayers2 p0 p1 := by
  simp [clifford2Gates, hsLayers2, cnotPattern, correctionLayer, pauliLayers2,
    List.append_assoc]

theorem clifford2Gates_form3 (i0 i1 j0 j1 p0 p1 : Nat) :
    clifford2Gates (3 :: i0 :: i1 :: j0 :: j1 :: [p0, p1]) =
      hsLayers2 i0 i1 j0 j1 ++ cnotPattern 3 ++ correctionLayer 3 0 0 ++
        pauliLayers2 p0 p1 := by
  simp [clifford2Gates, hsLayers2, cnotPattern, correctionLayer, pauliLayers2,
    List.append_assoc]

theorem clifford2Gates_form1 (i0 i1 j0 j1 k0 k1 p0 p1 : Nat) :
    clifford2Gates (1 :: i0 :: i1 :: j0 :: j1 :: [k0, k1, p0, p1]) =
      hsLayers2 i0 i1 j0 j1 ++ cnotPattern 1 ++ correctionLayer 1 k0 k1 ++
        pauliLayers2 p0 p1 := by
  rcases k0 with _ | _ | _ | k0 <;> rcases k1 with _ | _ | _ | k1 <;>
    simp [clifford2Gates, hsLayers2, cnotPattern, correctionLayer, pauliLayers2,
      List.append_assoc]

theorem clifford2Gates_form2 (i0 i1 j0 j1 k0 k1 p0 p1 : Nat) :
    clifford2Gates (2 :: i0 :: i1 :: j0 :: j1 :: [k0, k1, p0, p1]) =
      hsLayers2 i0 i1 j0 j1 ++ cnotPattern 2 ++ correctionLayer 2 k0 k1 ++
        pauliLayers2 p0 p1 := by
  rcases k0 with _ | _ | _ | k0 <;> rcases k1 with _ | _ | _ | k1 <;>
    simp [clifford2Gates, hsLayers2, cnotPattern, correctionLayer, pauliLayers2,
      List.append_assoc]

/-- C6: every in-range 2-qubit index resolves to a form below 4 and its
circuit is exactly the Hadamard and S-type layers, then the
form-selected CNOT pattern, then (for forms 1 and 2 only) the V/W
correction layer with V-twice on qubit 1, then the Pauli layer. -/
theorem clifford_2_qubit_layer_structure (num : Nat) (hn : num < 11520) :
    ∃ form i0 i1 j0 j1 k0 k1 p0 p1,
      _unpack_num_multi_sigs num CLIFFORD_2_QUBIT_SIGS =
        some (form :: i0 :: i1 :: j0 :: j1 ::
          (if form = 0 ∨ form = 3 then [p0, p1] else [k0, k1, p0, p1])) ∧
      form < 4 ∧
      clifford_2_qubit_circuit num =
        some (hsLayers2 i0 i1 j0 j1 ++ cnotPattern form ++
          correctionLayer form k0 k1 ++ pauliLayers2 p0 p1) := by
  have hprod6 : ([2, 2, 3, 3, 4, 4] : List Nat).prod = 576 := by decide
  have hprod8 : ([2, 2, 3, 3, 3, 3, 4, 4] : List Nat).prod = 5184 := by decide
  rcases Nat.lt_or_ge num 576 with h1 | h1
  · have e1 : _unpack_num_multi_sigs num CLIFFORD_2_QUBIT_SIGS =
        some (0 :: _unpack_num num [2, 2, 3, 3, 4, 4]) := by
      simp only [_unpack_num_multi_sigs, CLIFFORD_2_QUBIT_SIGS, unpackMultiAux, hprod6,
        hprod8]
      rw [if_pos (by omega)]
    have e2 : _unpack_num num ([2, 2, 3, 3, 4, 4] : List Nat) =
        [num % 2, num / 2 % 2, num / 2 / 2 % 3, num / 2 / 2 / 3 % 3,
          num / 2 / 2 / 3 / 3 % 4, num / 2 / 2 / 3 / 3 / 4 % 4] := rfl
    refine ⟨0, num % 2, num / 2 % 2, num / 2 / 2 % 3, num / 2 / 2 / 3 % 3, 0, 0,
      num / 2 / 2 / 3 / 3 % 4, num / 2 / 2 / 3 / 3 / 4 % 4, ?_, by decide, ?_⟩
    · rw [e1, e2]
      simp
    · rw [clifford_2_qubit_circuit, e1, Option.map_some', e2]
      exact congrArg some (clifford2Gates_form0 _ _ _ _ _ _)
  rcases Nat.lt_or_ge num 5760 with h2 | h2
  · have e1 : _unpack_num_multi_sigs num CLIFFORD_2_QUBIT_SIGS =
        some (1 :: _unpack_num (num - 576) [2, 2, 3, 3, 3, 3, 4, 4]) := by
      simp only [_unpack_num_multi_sigs, CLIFFORD_2_QUBIT_SIGS, unpackMultiAux, hprod6,
        hprod8]
      rw [if_neg (by omega), if_pos (by omega)]
    have e2 : _unpack_num (num - 576) ([2, 2, 3, 3, 3, 3, 4, 4] : List Nat) =
        [(num - 576) % 2, (num - 576) / 2 % 2, (num - 576) / 2 / 2 % 3,
          (num - 576) / 2 / 2 / 3 % 3, (num - 576) / 2 / 2 / 3 / 3 % 3,
          (num - 576) / 2 / 2 / 3 / 3 / 3 % 3, (num - 576) / 2 / 2 / 3 / 3 / 3 / 3 % 4,
          (num - 576) / 2 / 2 / 3 / 3 / 3 / 3 / 4 % 4] := rfl
    refine ⟨1, (num - 576) % 2, (num - 576) / 2 % 2, (num - 576) / 2 / 2 % 3,
      (num - 576) / 2 / 2 / 3 % 3, (num - 576) / 2 / 2 / 3 / 3 % 3,
      (num - 576) / 2 / 2 / 3 / 3 / 3 % 3, (num - 576) / 2 / 2 / 3 / 3 / 3 / 3 % 4,
      (num - 576) / 2 / 2 / 3 / 3 / 3 / 3 / 4 % 4, ?_, by decide, ?_⟩
    · rw [e1, e2]
      simp
    · rw [clifford_2_qubit_circuit, e1, Option.map_some', e2]
      exact congrArg some (clifford2Gates_form1 _ _ _ _ _ _ _ _)
  rcases Nat.lt_or_ge num 10944 with h3 | h3
  · have e1 : _unpack_num_multi_sigs num CLIFFORD_2_QUBIT_SIGS =
        some (2 :: _unpack_num (num - 576 - 5184) [2, 2, 3, 3, 3, 3, 4, 4]) := by
      simp only [_unpack_num_multi_sigs, CLIFFORD_2_QUBIT_SIGS, unpackMultiAux, hprod6,
        hprod8]
      rw [if_neg (by omega), if_neg (by omega), if_pos (by omega)]
    have e2 : _unpack_num (num - 576 - 5184) ([2, 2, 3, 3, 3, 3, 4, 4] : List Nat) =
        [(num - 576 - 5184) % 2, (num - 576 - 5184) / 2 % 2,
          (num - 576 - 5184) / 2 / 2 % 3, (num - 576 - 5184) / 2 / 2 / 3 % 3,
          (num - 576 - 5184) / 2 / 2 / 3 / 3 % 3,
          (num - 576 - 5184) / 2 / 2 / 3 / 3 / 3 % 3,
          (num - 576 - 5184) / 2 / 2 / 3 / 3 / 3 / 3 % 4,
          (num - 576 - 5184) / 2 / 2 / 3 / 3 / 3 / 3 / 4 % 4] := rfl
    refine ⟨2, (num - 576 - 5184) % 2, (num - 576 - 5184) / 2 % 2,
      (num - 576 - 5184) / 2 / 2 % 3, (num - 576 - 5184) / 2 / 2 / 3 % 3,
      (num - 576 - 5184) / 2 / 2 / 3 / 3 % 3, (num - 576 - 5184) / 2 / 2 / 3 / 3 / 3 % 3,
      (num - 576 - 5184) / 2 / 2 / 3 / 3 / 3 / 3 % 4,
      (num - 576 - 5184) / 2 / 2 / 3 / 3 / 3 / 3 / 4 % 4, ?_, by decide, ?_⟩
    · rw [e1, e2]
      simp
    · rw [clifford_2_qubit_circuit, e1, Option.map_some', e2]
      exact congrArg some (clifford2Gates_form2 _ _ _ _ _ _ _ _)
  · have e1 : _unpack_num_multi_sigs num CLIFFORD_2_QUBIT_SIGS =
        some (3 :: _unpack_num (num - 576 - 5184 - 5184) [2, 2, 3, 3, 4, 4]) := by
      simp only [_unpack_num_multi_sigs, CLIFFORD_2_QUBIT_SIGS, unpackMultiAux, hprod6,
        hprod8]
      rw [if_neg (by omega), if_neg (by omega), if_neg (by omega), if_pos (by omega)]
    have e2 : _unpack_num (num - 576 - 5184 - 5184) ([2, 2, 3, 3, 4, 4] : List Nat) =
        [(num - 576 - 5184 - 5184) % 2, (num - 576 - 5184 - 5184) / 2 % 2,
          (num - 576 - 5184 - 5184) / 2 / 2 % 3, (num - 576 - 5184 - 5184) / 2 / 2 / 3 % 3,
          (num - 576 - 5184 - 5184) / 2 / 2 / 3 / 3 % 4,
          (num - 576 - 5184 - 5184) / 2 / 2 / 3 / 3 / 4 % 4] := rfl
    refine ⟨3, (num - 576 - 5184 - 5184) % 2, (num - 576 - 5184 - 5184) / 2 % 2,
      (num - 576 - 5184 - 5184) / 2 / 2 % 3, (num - 576 - 5184 - 5184) / 2 / 2 / 3 % 3,
      0, 0, (num - 576 - 5184 - 5184) / 2 / 2 / 3 / 3 % 4,
      (num - 576 - 5184 - 5184) / 2 / 2 / 3 / 3 / 4 % 4, ?_, by decide, ?_⟩
    · rw [e1, e2]
      simp
    · rw [clifford_2_qubit_circuit, e1, Option.map_some', e2]
      exact congrArg some (clifford2Gates_form3 _ _ _ _ _ _)

theorem clifford_2_qubit_layer_structure_witness :
    1000 < 11520 ∧
    ∃ form i0 i1 j0 j1 k0 k1 p0 p1,
      _unpack_num_multi_sigs 1000 CLIFFORD_2_QUBIT_SIGS =
        some (form :: i0 :: i1 :: j0 :: j1 ::
          (if form = 0 ∨ form = 3 then [p0, p1] else [k0, k1, p0, p1])) ∧
      form < 4 ∧
      clifford_2_qubit_circuit 1000 =
        some (hsLayers2 i0 i1 j0 j1 ++ cnotPattern form ++
          correctionLayer form k0 k1 ++ pauliLayers2 p0 p1) :=
  ⟨by decide, clifford_2_qubit_layer_structure 1000 (by decide)⟩

/-- C2: the matching committed by the while-loop is a subset of the
input coupling map and is pairwise vertex-disjoint, for every coupling
map and every sequence of random choices. -/
theorem edgegrab_matching_valid (coupling_map : List Edge) (choices : List Nat) :
    (∀ e ∈ edgegrabLoop coupling_map choices [], e ∈ coupling_map) ∧
    List.Pairwise edgeDisjoint (edgegrabLoop coupling_map choices []) := by
  refine ⟨fun e he => ?_, ?_⟩
  · rcases edgegrabLoop_mem coupling_map choices [] e he with h | h
    · exact absurd h (List.not_mem_nil e)
    · exact h
  · exact edgegrabLoop_pairwise coupling_map choices [] List.Pairwise.nil
      (fun s hs => absurd hs (List.not_mem_nil s))

/-- Relabelling physical edge endpoints to their first positions in the
qubit list preserves pairwise vertex-disjointness (first positions of
distinct values are distinct). -/
theorem logicalEdges_pairwise (qubits : List Nat) (edges : List Edge)
    (hmem : ∀ e ∈ edges, e.1 ∈ qubits ∧ e.2 ∈ qubits)
    (hp : List.Pairwise edgeDisjoint edges) :
    List.Pairwise edgeDisjoint (logicalEdges qubits edges) := by
  rw [logicalEdges, List.pairwise_map]
  refine hp.imp_of_mem ?_
  intro a b ha hb hab
  obtain ⟨ha1, ha2⟩ := hmem a ha
  obtain ⟨hb1, hb2⟩ := hmem b hb
  exact ⟨fun h => hab.1 ((List.indexOf_inj ha1 hb1).mp h),
    fun h => hab.2.1 ((List.indexOf_inj ha1 hb2).mp h),
    fun h => hab.2.2.1 ((List.indexOf_inj ha2 hb1).mp h),
    fun h => hab.2.2.2 ((List.indexOf_inj ha2 hb2).mp h)⟩

/-- C3: for at least 2 qubits, every logical qubit is assigned exactly
once in each produced circuit — either it lies on exactly one matched
edge that received a CNOT (and then is absent from the 1-qubit-Clifford
set), or it appears exactly once in the 1-qubit-Clifford set. -/
theorem edgegrab_coverage (qubits : List Nat) (coupling_map : List Edge)
    (choices : List Nat) (coins : Nat → Bool) (q : Nat)
    (hmem : ∀ e ∈ coupling_map, e.1 ∈ qubits ∧ e.2 ∈ qubits)
    (hn : 2 ≤ qubits.length) (hq : q < qubits.length) :
    ((cnotAssign (logicalEdges qubits (edgegrabLoop coupling_map choices []))
        coins).countP (touches q) = 1 ∧
      (put1q qubits.length (cnotAssign
        (logicalEdges qubits (edgegrabLoop coupling_map choices [])) coins)).count q = 0) ∨
    ((cnotAssign (logicalEdges qubits (edgegrabLoop coupling_map choices []))
        coins).countP (touches q) = 0 ∧
      (put1q qubits.length (cnotAssign
        (logicalEdges qubits (edgegrabLoop coupling_map choices [])) coins)).count q = 1) := by
  set sel := edgegrabLoop coupling_map choices [] with hseldef
  have hsub : ∀ e ∈ sel, e ∈ coupling_map := by
    intro e he
    rcases edgegrabLoop_mem coupling_map choices [] e he with h | h
    · exact absurd h (List.not_mem_nil e)
    · exact h
  have hpair : List.Pairwise edgeDisjoint sel :=
    edgegrabLoop_pairwise coupling_map choices [] List.Pairwise.nil
      (fun s hs => absurd hs (List.not_mem_nil s))
  have hlpair : List.Pairwise edgeDisjoint (logicalEdges qubits sel) :=
    logicalEdges_pairwise qubits sel (fun e he => hmem e (hsub e he)) hpair
  set ce := cnotAssign (logicalEdges qubits sel) coins with hcedef
  have hcepair : List.Pairwise edgeDisjoint ce :=
    List.Pairwise.sublist (cnotAssign_sublist (logicalEdges qubits sel) coins) hlpair
  by_cases hex : ∃ e ∈ ce, touches q e = true
  · left
    constructor
    · have h1 : 0 < ce.countP (touches q) := List.countP_pos_iff.mpr hex
      have h2 : ce.countP (touches q) ≤ 1 := countP_touches_le_one q ce hcepair
      omega
    · rw [List.count_eq_zero]
      intro hqmem
      obtain ⟨e, he, hte⟩ := hex
      exact absurd hte (by simpa using ((mem_put1q_iff _ _ _).mp hqmem).2 e he)
  · right
    have hall : ∀ e ∈ ce, touches q e = false := by
      intro e he
      rcases Bool.eq_false_or_eq_true (touches q e) with h | h
      · exact absurd ⟨e, he, h⟩ hex
      · exact h
    refine ⟨List.countP_eq_zero.mpr (fun e he => by simp [hall e he]), ?_⟩
    have hnd : (put1q qubits.length ce).Nodup :=
      (List.nodup_range qubits.length).filter _
    exact List.count_eq_one_of_mem hnd ((mem_put1q_iff _ _ _).mpr ⟨hq, hall⟩)

theorem edgegrab_coverage_witness :
    ((∀ e ∈ ([(0, 1)] : List Edge), e.1 ∈ ([0, 1, 2] : List Nat) ∧ e.2 ∈ ([0, 1, 2] : List Nat)) ∧
      2 ≤ ([0, 1, 2] : List Nat).length ∧ 0 < ([0, 1, 2] : List Nat).length) ∧
    (((cnotAssign (logicalEdges [0, 1, 2] (edgegrabLoop [(0, 1)] [0] []))
        (fun _ => true)).countP (touches 0) = 1 ∧
      (put1q ([0, 1, 2] : List Nat).length (cnotAssign
        (logicalEdges [0, 1, 2] (edgegrabLoop [(0, 1)] [0] []))
        (fun _ => true))).count 0 = 0) ∨
    ((cnotAssign (logicalEdges [0, 1, 2] (edgegrabLoop [(0, 1)] [0] []))
        (fun _ => true)).countP (touches 0) = 0 ∧
      (put1q ([0, 1, 2] : List Nat).length (cnotAssign
        (logicalEdges [0, 1, 2] (edgegrabLoop [(0, 1)] [0] []))
        (fun _ => true))).count 0 = 1)) :=
  ⟨⟨by decide, by decide, by decide⟩,
    edgegrab_coverage [0, 1, 2] [(0, 1)] [0] (fun _ => true) 0 (by decide) (by decide)
      (by decide)⟩

/-- The inlined 1-qubit Clifford layer contains no two-qubit gate. -/
theorem clifford1QubitLayer_no_cx (num q : Nat) :
    ∀ g ∈ clifford1QubitLayer num q, isCx g = false := by
  intro g hg
  simp only [clifford1QubitLayer, CLIFFORD_1_QUBIT_SIG, _unpack_num, List.mem_append] at hg
  rcases hg with (((((hg | hg) | hg) | hg) | hg) | hg) <;>
    · split at hg
      · rw [List.mem_singleton.mp hg]
        rfl
      · exact absurd hg (List.not_mem_nil g)

/-- C9: with an empty coupling map and at least 2 qubits, the matching
is empty, the two-qubit probability stays 0 with the connectivity
warning raised, every qubit lands in the 1-qubit-Clifford set, and the
produced circuit contains no CNOT. -/
theorem edgegrab_no_connectivity (qubits : List Nat) (density : ℚ)
    (choices : List Nat) (coins : Nat → Bool) (samples : Nat → Nat)
    (hn : 2 ≤ qubits.length) :
    edgegrabLoop [] choices [] = [] ∧
    twoQubitProb qubits.length density (edgegrabLoop [] choices []).length = (0, true) ∧
    put1q qubits.length
      (cnotAssign (logicalEdges qubits (edgegrabLoop [] choices [])) coins) =
      List.range qubits.length ∧
    ∀ g ∈ edgegrabOneCircuit qubits [] choices coins samples, isCx g = false := by
  have hloop : edgegrabLoop ([] : List Edge) choices [] = [] := by rw [edgegrabLoop]
  have hce : cnotAssign (logicalEdges qubits ([] : List Edge)) coins = [] := rfl
  have hput : put1q qubits.length ([] : List Edge) = List.range qubits.length := by
    simp only [put1q, List.all_nil]
    exact List.filter_true _
  refine ⟨hloop, by rw [hloop]; rfl, ?_, ?_⟩
  · rw [hloop, hce, hput]
  · intro g hg
    rw [edgegrabOneCircuit, hloop] at hg
    simp only [edgegrabCircuit, hce, List.map_nil, List.nil_append, hput,
      List.mem_flatten, List.mem_map] at hg
    obtain ⟨l, ⟨p, hp, rfl⟩, hgl⟩ := hg
    exact clifford1QubitLayer_no_cx _ _ g hgl

theorem edgegrab_no_connectivity_witness :
    2 ≤ ([5, 6, 7] : List Nat).length ∧
    (edgegrabLoop [] [0] [] = [] ∧
      twoQubitProb ([5, 6, 7] : List Nat).length (1 / 4)
        (edgegrabLoop [] [0] []).length = (0, true) ∧
      put1q ([5, 6, 7] : List Nat).length
        (cnotAssign (logicalEdges [5, 6, 7] (edgegrabLoop [] [0] [])) (fun _ => true)) =
        List.range ([5, 6, 7] : List Nat).length ∧
      ∀ g ∈ edgegrabOneCircuit [5, 6, 7] [] [0] (fun _ => true) (fun t => t),
        isCx g = false) :=
  ⟨by decide,
    edgegrab_no_connectivity [5, 6, 7] (1 / 4) [0] (fun _ => true) (fun t => t) (by decide)⟩

/-- C10: the target bit string takes the trailing `n` entries of the
`2n`-length phase vector, reverses them, and maps `True` to `'1'` and
`False` to `'0'`; a 1-qubit X circuit yields `"1"` and an empty
1-qubit circuit yields `"0"`. -/
theorem compute_target_bitstring_extraction :
    (∀ (n : Nat) (pv : List Bool), pv.length = 2 * n →
      (compute_target_bitstring n pv).length = n ∧
        ∀ i, i < n →
          (compute_target_bitstring n pv).data[i]? =
            some (if pv.getD (2 * n - 1 - i) false then '1' else '0')) ∧
    compute_target_bitstring 1 (phase_vector_1q [Gate.x 0]) = "1" ∧
    compute_target_bitstring 1 (phase_vector_1q []) = "0" := by
  refine ⟨fun n pv hlen => ?_, by decide, by decide⟩
  have hlendrop : (pv.drop n).length = n := by
    rw [List.length_drop, hlen]
    omega
  constructor
  · show ((pv.drop n).reverse.map fun b => if b then '1' else '0').length = n
    rw [List.length_map, List.length_reverse, hlendrop]
  · intro i hi
    have h1 : (compute_target_bitstring n pv).data =
        ((pv.drop n).reverse.map fun b => if b then '1' else '0') := rfl
    rw [h1, List.getElem?_map,
      List.getElem?_reverse (by rw [hlendrop]; exact hi), hlendrop,
      List.getElem?_drop]
    have hidx : n + (n - 1 - i) = 2 * n - 1 - i := by omega
    rw [hidx]
    have hlt : 2 * n - 1 - i < pv.length := by
      rw [hlen]
      omega
    rw [List.getElem?_eq_getElem hlt, List.getD_eq_getElem _ _ hlt]
    rfl

theorem compute_target_bitstring_extraction_witness :
    (([false, true] : List Bool).length = 2 * 1) ∧
    ((compute_target_bitstring 1 [false, true]).length = 1 ∧
      ∀ i, i < 1 →
        (compute_target_bitstring 1 [false, true]).data[i]? =
          some (if ([false, true] : List Bool).getD (2 * 1 - 1 - i) false
            then '1' else '0')) :=
  ⟨by decide, compute_target_bitstring_extraction.1 1 [false, true] (by decide)⟩

end CliffordUtils
